import Mathlib

/-!
Shallow embedding of `htmresearch/frameworks/pytorch/mnist_sparse_experiment.py`
(class `MNISTSparseExperiment`).

The sparse neural network model is external to the repository; it is embedded
as an opaque state (`Model`) together with a bundle of externally supplied
operations (`Hooks`): the forward pass producing per-class log-probabilities,
the training-time state update of a forward/backward pass, the optimizer step,
`rezeroWeights` and `postEpoch`.  Floating-point numbers are idealised as `ℚ`.
Python dictionaries (the per-iteration result mappings) are embedded as
association lists with first-match lookup, and Python's `ZeroDivisionError`
(raised by `batch_idx % log_interval` when `log_interval == 0`) is embedded by
returning `Except String`.
-/

set_option autoImplicit false

namespace MNISTSparseExperiment

/-- State of the opaque trainable model (`self.model`): learned weights,
the per-unit duty-cycle statistic, the cumulative learning-iteration counter
(used to name diagnostic artifacts), and the train/eval mode flag toggled by
`model.train()` / `model.eval()`. -/
structure Model where
  weights : List ℚ
  dutyCycle : List ℚ
  learningIterations : ℕ
  training : Bool
deriving DecidableEq

/-- A data loader: a list of batches of (input, label) samples, plus the size
of the underlying dataset (`len(loader.dataset)`). -/
structure Loader (Input : Type) where
  batches : List (List (Input × ℕ))
  datasetSize : ℕ

/-- The experiment parameters consumed by `train` and `iterate`
(`params["iterations"]` and `params["log_interval"]`). -/
structure Params where
  iterations : ℕ
  log_interval : ℕ
deriving DecidableEq

/-- The externally supplied operations of the opaque model and optimizer:
`forward` is the inference output (per-class log-probabilities) for one input;
`fwdTrain` is the model-state effect of a training-mode forward/backward pass
on a batch; `optStep` is the weight update of `optimizer.step()`;
`rezero` is `model.rezeroWeights()`; `postEpoch` is `model.postEpoch()`. -/
structure Hooks (Input : Type) where
  forward : Model → Input → List ℚ
  fwdTrain : Model → List (Input × ℕ) → Model
  optStep : Model → List (Input × ℕ) → Model
  rezero : Model → Model
  postEpoch : Model → Model

/-- The metrics dictionary returned by `test`. -/
structure TestMetrics where
  num_correct : ℕ
  test_loss : ℚ
  testerror : ℚ
deriving DecidableEq

/-- Keys of the result dictionaries built by `iterate` / `runNoiseTests`:
a float noise level, or one of the string keys `"totalCorrect"`,
`"testerror"`, `"elapsedTime"`. -/
inductive RKey where
  | noise (level : ℚ)
  | totalCorrect
  | testerror
  | elapsedTime
deriving DecidableEq

/-- Values of the result dictionaries: a per-noise-level metrics sub-mapping,
an integer, or a float. -/
inductive RVal where
  | metrics (t : TestMetrics)
  | nat (n : ℕ)
  | rat (q : ℚ)
deriving DecidableEq

/-- A Python dict embedded as an association list (insertion order kept). -/
abbrev RMap := List (RKey × RVal)

/-- Dictionary lookup (`ret[k]`): the first entry with the given key. -/
def rget (ret : RMap) (k : RKey) : Option RVal :=
  (ret.find? fun e => decide (e.1 = k)).map (fun e => e.2)

/-- Python's `a % b` on nonnegative integers: raises `ZeroDivisionError`
when `b == 0`. -/
def pyMod (a b : ℕ) : Except String ℕ :=
  if b = 0 then .error "integer division or modulo by zero" else .ok (a % b)

/-- The fixed noise levels of `runNoiseTests`, in source order. -/
def noiseLevels : List ℚ :=
  [0.0, 0.05, 0.1, 0.15, 0.2, 0.25, 0.3, 0.35, 0.4, 0.45, 0.5]

/-- Index (`argmax`) of the first maximal element, as in
`output.max(1, keepdim=True)[1]`; auxiliary recursion carrying the current
index, best index and best value. -/
def idxMaxAux : List ℚ → ℕ → ℕ → ℚ → ℕ
  | [], _, bi, _ => bi
  | x :: xs, i, bi, bv =>
      if bv < x then idxMaxAux xs (i + 1) i x else idxMaxAux xs (i + 1) bi bv

/-- Index of the first maximal element of a list of log-probabilities
(`0` for the empty list). -/
def idxMax : List ℚ → ℕ
  | [] => 0
  | x :: xs => idxMaxAux xs 1 0 x

/-- Per-sample negative-log-likelihood loss `F.nll_loss` on log-probability
inputs: minus the entry at the target index. -/
def nllLoss (output : List ℚ) (target : ℕ) : ℚ :=
  -(output.getD target 0)

/-- Loss of one (input, label) sample under model state `m`. -/
def sampleLoss {Input : Type} (H : Hooks Input) (m : Model) (s : Input × ℕ) : ℚ :=
  nllLoss (H.forward m s.1) s.2

/-- Whether the top-1 prediction for one sample equals its label
(`pred.eq(target.view_as(pred))`). -/
def sampleCorrect {Input : Type} (H : Hooks Input) (m : Model) (s : Input × ℕ) : Bool :=
  idxMax (H.forward m s.1) == s.2

/-- One step of the evaluation loop body of `test`: add the batch's summed
loss (`F.nll_loss(..., reduction='sum')`) and its count of correct top-1
predictions to the accumulators. -/
def testStep {Input : Type} (H : Hooks Input) (m : Model) (acc : ℚ × ℕ)
    (batch : List (Input × ℕ)) : ℚ × ℕ :=
  (acc.1 + (batch.map (sampleLoss H m)).sum, acc.2 + batch.countP (sampleCorrect H m))

/-- `MNISTSparseExperiment.test`: put the model in eval mode, accumulate
summed loss and correct count over all batches, then divide by the dataset
size.  Returns the metrics dictionary and the (mode-switched) model state. -/
def test {Input : Type} (H : Hooks Input) (m : Model) (loader : Loader Input) :
    TestMetrics × Model :=
  let me := { m with training := false }
  let r := loader.batches.foldl (testStep H me) (0, 0)
  ({ num_correct := r.2,
     test_loss := r.1 / (loader.datasetSize : ℚ),
     testerror := 100 * (r.2 : ℚ) / (loader.datasetSize : ℚ) }, me)

/-- The loop body of `runNoiseTests` over a list of noise levels: for each
level build the noise loader, run `test`, record the result keyed by the
level, and accumulate `total_correct`.  Returns the ordered per-level entries,
the accumulated total, and the final model state. -/
def noiseSweep {Input : Type} (H : Hooks Input) (noiseLoader : ℚ → Loader Input) :
    List ℚ → Model → List (ℚ × TestMetrics) × ℕ × Model
  | [], m => ([], 0, m)
  | lvl :: rest, m =>
      let r := test H m (noiseLoader lvl)
      let s := noiseSweep H noiseLoader rest r.2
      ((lvl, r.1) :: s.1, r.1.num_correct + s.2.1, s.2.2)

/-- A per-noise-level dictionary entry `ret[noise] = testResult`. -/
def entryKV (e : ℚ × TestMetrics) : RKey × RVal :=
  (RKey.noise e.1, RVal.metrics e.2)

/-- `MNISTSparseExperiment.runNoiseTests`: evaluate at each of the fixed noise
levels, then append `ret["totalCorrect"] = total_correct` and
`ret["testerror"] = ret[0.0]["testerror"]`. -/
def runNoiseTests {Input : Type} (H : Hooks Input) (noiseLoader : ℚ → Loader Input)
    (m : Model) : RMap × Model :=
  let s := noiseSweep H noiseLoader noiseLevels m
  let entries := s.1.map entryKV
  let errVal : RVal :=
    match rget entries (RKey.noise 0.0) with
    | some (RVal.metrics t) => RVal.rat t.testerror
    | _ => RVal.rat 0
  (entries ++ [(RKey.totalCorrect, RVal.nat s.2.1), (RKey.testerror, errVal)], s.2.2)

/-- Observable events of one epoch of `train`, in program order. -/
inductive Event where
  | zeroGrad
  | forwardPass
  | backwardPass
  | optStep
  | rezero
  | artifact (epoch : ℕ) (learningIterations : ℕ)
  | postEpoch
deriving DecidableEq

/-- The batch loop of `train` (lines 128-148): for each batch, zero the
gradients, forward, backward, optimizer step, `rezeroWeights`, and every
`log_interval` batches (Python `batch_idx % log_interval == 0`, an error when
`log_interval == 0`) save a duty-cycle histogram named by the epoch and the
model's learning-iteration count. -/
def trainBatches {Input : Type} (H : Hooks Input) (log_interval : ℕ) (epoch : ℕ) :
    List (List (Input × ℕ)) → ℕ → Model → Except String (List Event × Model)
  | [], _, m => .ok ([], m)
  | b :: rest, batch_idx, m =>
      let m1 := H.fwdTrain m b
      let m2 := H.rezero (H.optStep m1 b)
      match pyMod batch_idx log_interval with
      | .error e => .error e
      | .ok r =>
          let evs0 := [Event.zeroGrad, Event.forwardPass, Event.backwardPass,
                       Event.optStep, Event.rezero]
          let evs1 := if r = 0 then evs0 ++ [Event.artifact epoch m2.learningIterations]
                      else evs0
          match trainBatches H log_interval epoch rest (batch_idx + 1) m2 with
          | .error e => .error e
          | .ok (evs, m3) => .ok (evs1 ++ evs, m3)

/-- `MNISTSparseExperiment.train`: put the model in training mode, run the
batch loop from batch index 0, then call `postEpoch`.  Returns the epoch's
event trace and the final model state, or the propagated error. -/
def train {Input : Type} (H : Hooks Input) (params : Params) (loader : Loader Input)
    (m : Model) (epoch : ℕ) : Except String (List Event × Model) :=
  match trainBatches H params.log_interval epoch loader.batches 0
      { m with training := true } with
  | .error e => .error e
  | .ok (evs, m1) => .ok (evs ++ [Event.postEpoch], H.postEpoch m1)

/-- `MNISTSparseExperiment.iterate`: train one epoch; on the last configured
iteration (`iteration == params["iterations"] - 1`, Python integer
arithmetic) fold in the noise-sweep results; always append
`ret["elapsedTime"]`. -/
def iterate {Input : Type} (H : Hooks Input) (params : Params)
    (train_loader : Loader Input) (noiseLoader : ℚ → Loader Input) (m : Model)
    (iteration : ℕ) (elapsed : ℚ) : Except String (RMap × Model) :=
  match train H params train_loader m iteration with
  | .error e => .error e
  | .ok (_, m1) =>
      if (iteration : ℤ) = (params.iterations : ℤ) - 1 then
        let r := runNoiseTests H noiseLoader m1
        .ok (r.1 ++ [(RKey.elapsedTime, RVal.rat elapsed)], r.2)
      else
        .ok ([(RKey.elapsedTime, RVal.rat elapsed)], m1)

/-- Whether an event is a diagnostic-artifact write (`plt.savefig`). -/
def isArtifact : Event → Bool
  | .artifact _ _ => true
  | _ => false

/-- Number of diagnostic artifacts written in a trace. -/
def countArtifacts (evs : List Event) : ℕ :=
  evs.countP isArtifact

/-- Every `optStep` event is immediately followed by a `rezero` event
(in particular the trace does not end in a bare `optStep`). -/
def stepsRezeroed : List Event → Bool
  | [] => true
  | Event.optStep :: Event.rezero :: rest => stepsRezeroed (Event.rezero :: rest)
  | Event.optStep :: _ => false
  | _ :: rest => stepsRezeroed rest

/-- The noise level of a per-noise-level dictionary entry, if it is one. -/
def noiseLevelOf : RKey × RVal → Option ℚ
  | (RKey.noise l, _) => some l
  | _ => none

/-- The `num_correct` of a per-noise-level dictionary entry, if it is one. -/
def noiseCorrectOf : RKey × RVal → Option ℕ
  | (RKey.noise _, RVal.metrics t) => some t.num_correct
  | _ => none

/-- A trivial instantiation of the external model operations, used to
evaluate the embedding at concrete inputs. -/
def cxHooks : Hooks Unit :=
  { forward := fun _ _ => [], fwdTrain := fun m _ => m, optStep := fun m _ => m,
    rezero := fun m => m, postEpoch := fun m => m }

/-- A one-batch, one-sample loader over the trivial input type. -/
def cxLoader : Loader Unit :=
  { batches := [[((), 0)]], datasetSize := 1 }

/-- A concrete initial model state. -/
def cxModel : Model :=
  { weights := [], dutyCycle := [], learningIterations := 0, training := false }

/-! ### Dictionary lookup lemmas -/

theorem rget_nil (k : RKey) : rget [] k = none := rfl

theorem rget_cons_eq (k : RKey) (v : RVal) (l : RMap) :
    rget ((k, v) :: l) k = some v := by
  simp [rget, List.find?]

theorem rget_cons_ne {k' k : RKey} (h : k' ≠ k) (v : RVal) (l : RMap) :
    rget ((k', v) :: l) k = rget l k := by
  simp [rget, List.find?, h]

theorem rget_append_left {l1 : RMap} {k : RKey} {v : RVal} (l2 : RMap)
    (h : rget l1 k = some v) : rget (l1 ++ l2) k = some v := by
  induction l1 with
  | nil => simp [rget] at h
  | cons a l ih =>
      by_cases hk : a.1 = k
      · rw [List.cons_append]
        simp only [rget, List.find?, hk] at h ⊢
        simpa using h
      · rw [List.cons_append]
        have h' : rget l k = some v := by simpa [rget, List.find?, hk] using h
        simpa [rget, List.find?, hk] using ih h'

theorem rget_append_right {l1 : RMap} {k : RKey} (l2 : RMap)
    (h : rget l1 k = none) : rget (l1 ++ l2) k = rget l2 k := by
  induction l1 with
  | nil => simp
  | cons a l ih =>
      by_cases hk : a.1 = k
      · simp [rget, List.find?, hk] at h
      · rw [List.cons_append]
        have h' : rget l k = none := by simpa [rget, List.find?, hk] using h
        rw [← ih h']
        simp [rget, List.find?, hk]

/-! ### Evaluation routine: accumulation over batches -/

theorem foldl_testStep {Input : Type} (H : Hooks Input) (me : Model)
    (bs : List (List (Input × ℕ))) (l0 : ℚ) (c0 : ℕ) :
    bs.foldl (testStep H me) (l0, c0) =
      (l0 + (bs.flatten.map (sampleLoss H me)).sum,
       c0 + bs.flatten.countP (sampleCorrect H me)) := by
  induction bs generalizing l0 c0 with
  | nil => simp
  | cons b rest ih =>
      simp only [List.foldl_cons, testStep, ih, List.flatten_cons, List.map_append,
        List.sum_append, List.countP_append, Prod.mk.injEq]
      exact ⟨by ring, by omega⟩

/-- The model state returned by `test` is the input model switched to eval
mode; nothing else changes. -/
theorem test_model {Input : Type} (H : Hooks Input) (m : Model) (loader : Loader Input) :
    (test H m loader).2 = { m with training := false } := rfl

/-- C5: for every data loader, the evaluation routine returns `num_correct`
equal to the number of samples (over all batches) whose top-1 prediction
matches the label, `test_loss` equal to the summed per-sample loss divided by
the dataset size, and `testerror` equal to `100 * num_correct / datasetSize`;
the model is run in inference mode (the eval-mode model state
`(test H m loader).2`). -/
theorem test_evaluation_metrics {Input : Type} (H : Hooks Input) (m : Model)
    (loader : Loader Input) :
    ((test H m loader).1).num_correct
        = loader.batches.flatten.countP (sampleCorrect H ((test H m loader).2)) ∧
    ((test H m loader).1).test_loss
        = (loader.batches.flatten.map (sampleLoss H ((test H m loader).2))).sum
            / (loader.datasetSize : ℚ) ∧
    ((test H m loader).1).testerror
        = 100 * (((test H m loader).1).num_correct : ℚ) / (loader.datasetSize : ℚ) := by
  simp only [test, foldl_testStep]
  refine ⟨by simp, by simp, by simp⟩

/-- C8: evaluating twice in succession on the same loader, with no
intervening change to the model, yields identical `num_correct` and
identical `test_loss` (the second call receives the model state returned by
the first). -/
theorem test_idempotent {Input : Type} (H : Hooks Input) (m : Model)
    (loader : Loader Input) :
    ((test H ((test H m loader).2) loader).1).num_correct
        = ((test H m loader).1).num_correct ∧
    ((test H ((test H m loader).2) loader).1).test_loss
        = ((test H m loader).1).test_loss := by
  constructor <;> rfl

/-! ### Noise sweep lemmas -/

theorem noiseSweep_levels {Input : Type} (H : Hooks Input)
    (nl : ℚ → Loader Input) (levels : List ℚ) (m : Model) :
    ((noiseSweep H nl levels m).1).map Prod.fst = levels := by
  induction levels generalizing m with
  | nil => rfl
  | cons lvl rest ih => simp [noiseSweep, ih]

theorem noiseSweep_total {Input : Type} (H : Hooks Input)
    (nl : ℚ → Loader Input) (levels : List ℚ) (m : Model) :
    (noiseSweep H nl levels m).2.1
      = (((noiseSweep H nl levels m).1).map (fun e => e.2.num_correct)).sum := by
  induction levels generalizing m with
  | nil => rfl
  | cons lvl rest ih => simp [noiseSweep, ih]

theorem noiseSweep_model {Input : Type} (H : Hooks Input)
    (nl : ℚ → Loader Input) (levels : List ℚ) (m : Model) :
    ((noiseSweep H nl levels m).2.2).weights = m.weights ∧
    ((noiseSweep H nl levels m).2.2).dutyCycle = m.dutyCycle ∧
    ((noiseSweep H nl levels m).2.2).learningIterations = m.learningIterations := by
  induction levels generalizing m with
  | nil => exact ⟨rfl, rfl, rfl⟩
  | cons lvl rest ih =>
      simpa [noiseSweep, test_model] using ih { m with training := false }

/-- C7: the noise robustness sweep performs no training; the model's weights,
duty cycle and learning-iteration counter after `runNoiseTests` all equal
their values before it. -/
theorem runNoiseTests_preserves_model {Input : Type} (H : Hooks Input)
    (nl : ℚ → Loader Input) (m : Model) :
    ((runNoiseTests H nl m).2).weights = m.weights ∧
    ((runNoiseTests H nl m).2).dutyCycle = m.dutyCycle ∧
    ((runNoiseTests H nl m).2).learningIterations = m.learningIterations := by
  simpa [runNoiseTests] using noiseSweep_model H nl noiseLevels m

theorem filterMap_entryKV_level (l : List (ℚ × TestMetrics)) :
    (l.map entryKV).filterMap noiseLevelOf = l.map Prod.fst := by
  induction l with
  | nil => rfl
  | cons e rest ih => simp [entryKV, noiseLevelOf, ih]

theorem filterMap_entryKV_correct (l : List (ℚ × TestMetrics)) :
    (l.map entryKV).filterMap noiseCorrectOf = l.map (fun e => e.2.num_correct) := by
  induction l with
  | nil => rfl
  | cons e rest ih => simp [entryKV, noiseCorrectOf, ih]

theorem rget_entryKV_none (l : List (ℚ × TestMetrics)) (k : RKey)
    (h : ∀ lvl, k ≠ RKey.noise lvl) : rget (l.map entryKV) k = none := by
  induction l with
  | nil => rfl
  | cons e rest ih =>
      rw [List.map_cons]
      rw [show entryKV e = (RKey.noise e.1, RVal.metrics e.2) from rfl]
      rw [rget_cons_ne (fun he => h e.1 he.symm) _ _]
      exact ih

theorem rget_entryKV_mem (l : List (ℚ × TestMetrics)) (lvl : ℚ)
    (h : lvl ∈ l.map Prod.fst) :
    ∃ t, rget (l.map entryKV) (RKey.noise lvl) = some (RVal.metrics t) := by
  induction l with
  | nil => simp at h
  | cons e rest ih =>
      by_cases he : e.1 = lvl
      · refine ⟨e.2, ?_⟩
        rw [List.map_cons, show entryKV e = (RKey.noise e.1, RVal.metrics e.2) from rfl, he]
        exact rget_cons_eq _ _ _
      · have hne : RKey.noise e.1 ≠ RKey.noise lvl := by
          intro hk; exact he (by injection hk)
        rw [List.map_cons, List.mem_cons] at h
        have h' : lvl ∈ rest.map Prod.fst := by
          rcases h with h1 | h1
          · exact absurd h1.symm he
          · exact h1
        rw [List.map_cons, show entryKV e = (RKey.noise e.1, RVal.metrics e.2) from rfl,
          rget_cons_ne hne _ _]
        exact ih h'

/-- The value recorded under `totalCorrect` is the sweep's accumulated
`total_correct`. -/
theorem runNoiseTests_totalCorrect_val {Input : Type} (H : Hooks Input)
    (nl : ℚ → Loader Input) (m : Model) :
    rget ((runNoiseTests H nl m).1) RKey.totalCorrect
      = some (RVal.nat (noiseSweep H nl noiseLevels m).2.1) := by
  unfold runNoiseTests
  have hnone : rget (((noiseSweep H nl noiseLevels m).1).map entryKV)
      RKey.totalCorrect = none :=
    rget_entryKV_none _ _ (fun lvl h => by simp at h)
  rw [rget_append_right _ hnone, rget_cons_eq]

/-- C2: the noise robustness sweep records one evaluation result under every
noise-level key, the levels being exactly the fixed ordered sequence
0.0, 0.05, ..., 0.5 (eleven values, each once, in order), and the returned
`totalCorrect` equals the sum of the `num_correct` values of those per-level
evaluation results. -/
theorem runNoiseTests_totalCorrect {Input : Type} (H : Hooks Input)
    (nl : ℚ → Loader Input) (m : Model) :
    ((runNoiseTests H nl m).1).filterMap noiseLevelOf = noiseLevels ∧
    rget ((runNoiseTests H nl m).1) RKey.totalCorrect
      = some (RVal.nat ((((runNoiseTests H nl m).1).filterMap noiseCorrectOf).sum)) := by
  constructor
  · unfold runNoiseTests
    rw [List.filterMap_append, filterMap_entryKV_level, noiseSweep_levels]
    simp [noiseLevelOf]
  · rw [runNoiseTests_totalCorrect_val]
    have hfm : ((runNoiseTests H nl m).1).filterMap noiseCorrectOf
        = ((noiseSweep H nl noiseLevels m).1).map (fun e => e.2.num_correct) := by
      unfold runNoiseTests
      rw [List.filterMap_append, filterMap_entryKV_correct]
      have : (List.filterMap noiseCorrectOf
          [(RKey.totalCorrect, RVal.nat (noiseSweep H nl noiseLevels m).2.1),
           (RKey.testerror,
            match rget (((noiseSweep H nl noiseLevels m).1).map entryKV)
                (RKey.noise 0.0) with
            | some (RVal.metrics t) => RVal.rat t.testerror
            | _ => RVal.rat 0)]) = [] := by
        simp [noiseCorrectOf]
      rw [this, List.append_nil]
    rw [hfm, ← noiseSweep_total]

theorem trainBatches_ok {Input : Type} (H : Hooks Input) {li : ℕ} (epoch : ℕ)
    (hli : 1 ≤ li) (bs : List (List (Input × ℕ))) :
    ∀ (idx : ℕ) (m : Model), ∃ p, trainBatches H li epoch bs idx m = .ok p := by
  induction bs with
  | nil => exact fun idx m => ⟨([], m), rfl⟩
  | cons b rest ih =>
      intro idx m
      obtain ⟨⟨evs, m'⟩, hrec⟩ := ih (idx + 1) (H.rezero (H.optStep (H.fwdTrain m b) b))
      have hne : li ≠ 0 := by omega
      by_cases hidx : idx % li = 0 <;>
        simp [trainBatches, pyMod, hne, hidx, hrec]

theorem train_ok {Input : Type} (H : Hooks Input) {params : Params}
    (loader : Loader Input) (m : Model) (epoch : ℕ)
    (hli : 1 ≤ params.log_interval) :
    ∃ p, train H params loader m epoch = .ok p := by
  obtain ⟨⟨evs, m1⟩, h⟩ :=
    trainBatches_ok H epoch hli loader.batches 0 { m with training := true }
  refine ⟨(evs ++ [Event.postEpoch], H.postEpoch m1), ?_⟩
  simp [train, h]

/-- Headline-testerror property of the sweep result map alone. -/
theorem runNoiseTests_testerror_eq {Input : Type} (H : Hooks Input)
    (nl : ℚ → Loader Input) (m : Model) :
    ∃ t, rget ((runNoiseTests H nl m).1) (RKey.noise 0.0) = some (RVal.metrics t) ∧
      rget ((runNoiseTests H nl m).1) RKey.testerror = some (RVal.rat t.testerror) := by
  unfold runNoiseTests
  have hmem : (0.0 : ℚ) ∈ ((noiseSweep H nl noiseLevels m).1).map Prod.fst := by
    rw [noiseSweep_levels]
    simp [noiseLevels]
  obtain ⟨t, ht⟩ := rget_entryKV_mem _ _ hmem
  refine ⟨t, ?_, ?_⟩
  · exact rget_append_left _ ht
  · have hnone : rget (((noiseSweep H nl noiseLevels m).1).map entryKV)
        RKey.testerror = none :=
      rget_entryKV_none _ _ (fun lvl h => by simp at h)
    rw [rget_append_right _ hnone, rget_cons_ne (by simp) _ _, rget_cons_eq, ht]

/-- C3: the top-level `testerror` of the noise sweep's result equals the
`testerror` of the evaluation recorded under noise level 0.0, and
consequently the same holds of the result returned by `iterate` on the last
configured iteration. -/
theorem noise_testerror_is_clean_testerror {Input : Type} (H : Hooks Input)
    (params : Params) (train_loader : Loader Input) (nl : ℚ → Loader Input)
    (m : Model) (iteration : ℕ) (elapsed : ℚ)
    (hli : 1 ≤ params.log_interval)
    (hfin : (iteration : ℤ) = (params.iterations : ℤ) - 1) :
    (∃ t, rget ((runNoiseTests H nl m).1) (RKey.noise 0.0) = some (RVal.metrics t) ∧
        rget ((runNoiseTests H nl m).1) RKey.testerror = some (RVal.rat t.testerror)) ∧
    (∃ ret m2 t, iterate H params train_loader nl m iteration elapsed = .ok (ret, m2) ∧
        rget ret (RKey.noise 0.0) = some (RVal.metrics t) ∧
        rget ret RKey.testerror = some (RVal.rat t.testerror)) := by
  refine ⟨runNoiseTests_testerror_eq H nl m, ?_⟩
  obtain ⟨⟨evs, m1⟩, htr⟩ := train_ok H train_loader m iteration hli
  obtain ⟨t, ht0, hte⟩ := runNoiseTests_testerror_eq H nl m1
  refine ⟨(runNoiseTests H nl m1).1 ++ [(RKey.elapsedTime, RVal.rat elapsed)],
    (runNoiseTests H nl m1).2, t, ?_, ?_, ?_⟩
  · simp [iterate, htr, hfin]
  · exact rget_append_left _ ht0
  · exact rget_append_left _ hte

/-- The sweep's result map holds no `elapsedTime` entry. -/
theorem runNoiseTests_no_elapsed {Input : Type} (H : Hooks Input)
    (nl : ℚ → Loader Input) (m : Model) :
    rget ((runNoiseTests H nl m).1) RKey.elapsedTime = none := by
  unfold runNoiseTests
  have hnone : rget (((noiseSweep H nl noiseLevels m).1).map entryKV)
      RKey.elapsedTime = none :=
    rget_entryKV_none _ _ (fun lvl h => by simp at h)
  rw [rget_append_right _ hnone, rget_cons_ne (by simp) _ _,
    rget_cons_ne (by simp) _ _, rget_nil]

/-- C4: `iterate` always returns a mapping containing `elapsedTime`, and it
contains the noise-sweep summary entries (`totalCorrect`, `testerror`, and
the per-noise-level sub-mappings) exactly when the iteration index is the
last configured one (`iteration == params.iterations - 1`). -/
theorem iterate_result_keys {Input : Type} (H : Hooks Input) (params : Params)
    (train_loader : Loader Input) (nl : ℚ → Loader Input) (m : Model)
    (iteration : ℕ) (elapsed : ℚ) (hli : 1 ≤ params.log_interval) :
    ∃ ret m2, iterate H params train_loader nl m iteration elapsed = .ok (ret, m2) ∧
      rget ret RKey.elapsedTime = some (RVal.rat elapsed) ∧
      ((rget ret RKey.totalCorrect).isSome
          ↔ (iteration : ℤ) = (params.iterations : ℤ) - 1) ∧
      ((rget ret RKey.testerror).isSome
          ↔ (iteration : ℤ) = (params.iterations : ℤ) - 1) ∧
      (∀ lvl ∈ noiseLevels, (rget ret (RKey.noise lvl)).isSome
          ↔ (iteration : ℤ) = (params.iterations : ℤ) - 1) := by
  obtain ⟨⟨evs, m1⟩, htr⟩ := train_ok H train_loader m iteration hli
  by_cases hfin : (iteration : ℤ) = (params.iterations : ℤ) - 1
  · refine ⟨(runNoiseTests H nl m1).1 ++ [(RKey.elapsedTime, RVal.rat elapsed)],
      (runNoiseTests H nl m1).2, by simp [iterate, htr, hfin], ?_, ?_, ?_, ?_⟩
    · rw [rget_append_right _ (runNoiseTests_no_elapsed H nl m1), rget_cons_eq]
    · rw [rget_append_left _ (runNoiseTests_totalCorrect_val H nl m1)]
      simp [hfin]
    · obtain ⟨t, _, hte⟩ := runNoiseTests_testerror_eq H nl m1
      rw [rget_append_left _ hte]
      simp [hfin]
    · intro lvl hlvl
      have hmem : lvl ∈ ((noiseSweep H nl noiseLevels m1).1).map Prod.fst := by
        rw [noiseSweep_levels]; exact hlvl
      obtain ⟨t, ht⟩ := rget_entryKV_mem _ _ hmem
      have : rget ((runNoiseTests H nl m1).1) (RKey.noise lvl)
          = some (RVal.metrics t) := by
        unfold runNoiseTests
        exact rget_append_left _ ht
      rw [rget_append_left _ this]
      simp [hfin]
  · refine ⟨[(RKey.elapsedTime, RVal.rat elapsed)], m1,
      by simp [iterate, htr, hfin], rget_cons_eq _ _ _, ?_, ?_, ?_⟩
    · rw [rget_cons_ne (by simp) _ _, rget_nil]
      simp [hfin]
    · rw [rget_cons_ne (by simp) _ _, rget_nil]
      simp [hfin]
    · intro lvl _
      rw [rget_cons_ne (by simp) _ _, rget_nil]
      simp [hfin]

/-- C9: on every iteration that is not the last configured one, `iterate`
returns a mapping whose only entry is `elapsedTime`. -/
theorem iterate_nonfinal_only_elapsed {Input : Type} (H : Hooks Input)
    (params : Params) (train_loader : Loader Input) (nl : ℚ → Loader Input)
    (m : Model) (iteration : ℕ) (elapsed : ℚ)
    (hli : 1 ≤ params.log_interval)
    (hnf : (iteration : ℤ) ≠ (params.iterations : ℤ) - 1) :
    ∃ m2, iterate H params train_loader nl m iteration elapsed
      = .ok ([(RKey.elapsedTime, RVal.rat elapsed)], m2) := by
  obtain ⟨⟨evs, m1⟩, htr⟩ := train_ok H train_loader m iteration hli
  exact ⟨m1, by simp [iterate, htr, hnf]⟩

/-! ### Training-loop trace lemmas -/

theorem sr_nil : stepsRezeroed [] = true := rfl

theorem sr_zeroGrad (l : List Event) :
    stepsRezeroed (Event.zeroGrad :: l) = stepsRezeroed l := rfl

theorem sr_forwardPass (l : List Event) :
    stepsRezeroed (Event.forwardPass :: l) = stepsRezeroed l := rfl

theorem sr_backwardPass (l : List Event) :
    stepsRezeroed (Event.backwardPass :: l) = stepsRezeroed l := rfl

theorem sr_rezero (l : List Event) :
    stepsRezeroed (Event.rezero :: l) = stepsRezeroed l := rfl

theorem sr_artifact (e k : ℕ) (l : List Event) :
    stepsRezeroed (Event.artifact e k :: l) = stepsRezeroed l := rfl

theorem sr_postEpoch (l : List Event) :
    stepsRezeroed (Event.postEpoch :: l) = stepsRezeroed l := rfl

theorem sr_optStep_rezero (l : List Event) :
    stepsRezeroed (Event.optStep :: Event.rezero :: l)
      = stepsRezeroed (Event.rezero :: l) := rfl

/-- Trace shape of the batch loop: every `optStep` is immediately followed by
a `rezero` and the tail is reached with the discipline intact; each batch
contributes exactly one `optStep` and one `rezero`; no `postEpoch` occurs. -/
theorem trainBatches_discipline {Input : Type} (H : Hooks Input) {li : ℕ}
    (epoch : ℕ) (bs : List (List (Input × ℕ))) :
    ∀ (idx : ℕ) (m : Model) (evs : List Event) (m' : Model),
      trainBatches H li epoch bs idx m = .ok (evs, m') →
      (∀ tail, stepsRezeroed (evs ++ tail) = stepsRezeroed tail) ∧
      evs.count Event.optStep = bs.length ∧
      evs.count Event.rezero = bs.length ∧
      evs.count Event.postEpoch = 0 := by
  induction bs with
  | nil =>
      intro idx m evs m' h
      simp only [trainBatches, Except.ok.injEq, Prod.mk.injEq] at h
      rw [← h.1]
      exact ⟨fun tail => rfl, rfl, rfl, rfl⟩
  | cons b rest ih =>
      intro idx m evs m' h
      by_cases hz : li = 0
      · simp [trainBatches, pyMod, hz] at h
      · simp only [trainBatches, pyMod, hz, if_false] at h
        cases hrec : trainBatches H li epoch rest (idx + 1)
            (H.rezero (H.optStep (H.fwdTrain m b) b)) with
        | error e =>
            rw [hrec] at h
            simp at h
        | ok p =>
            obtain ⟨evs2, m2⟩ := p
            rw [hrec] at h
            simp only [Except.ok.injEq, Prod.mk.injEq] at h
            obtain ⟨h1, h2⟩ := h
            subst h1
            obtain ⟨hsr, hopt, hrz, hpe⟩ := ih (idx + 1) _ evs2 m2 hrec
            by_cases hidx : idx % li = 0
            · rw [if_pos hidx]
              refine ⟨?_, ?_, ?_, ?_⟩
              · intro tail
                simp only [List.append_assoc, List.cons_append, List.nil_append,
                  sr_zeroGrad, sr_forwardPass, sr_backwardPass, sr_optStep_rezero,
                  sr_rezero, sr_artifact]
                exact hsr tail
              · simp [List.count_append, List.count_cons, hopt]
              · simp [List.count_append, List.count_cons, hrz]
              · simp [List.count_append, List.count_cons, hpe]
            · rw [if_neg hidx]
              refine ⟨?_, ?_, ?_, ?_⟩
              · intro tail
                simp only [List.append_assoc, List.cons_append, List.nil_append,
                  sr_zeroGrad, sr_forwardPass, sr_backwardPass, sr_optStep_rezero,
                  sr_rezero]
                exact hsr tail
              · simp [List.count_append, List.count_cons, hopt]
              · simp [List.count_append, List.count_cons, hrz]
              · simp [List.count_append, List.count_cons, hpe]

/-- C6: with a positive `log_interval`, an epoch of the training loop
produces a trace in which every `optStep` is immediately followed by a
`rezero` (the zero-weight-enforcement hook runs after every optimizer step,
with no further batch in between), `rezero` occurs exactly once per
optimizer step, and `postEpoch` occurs exactly once, as the last event. -/
theorem train_hook_discipline {Input : Type} (H : Hooks Input) (params : Params)
    (loader : Loader Input) (m : Model) (epoch : ℕ)
    (hli : 1 ≤ params.log_interval) :
    ∃ evs m', train H params loader m epoch = .ok (evs, m') ∧
      stepsRezeroed evs = true ∧
      evs.count Event.rezero = evs.count Event.optStep ∧
      evs.count Event.postEpoch = 1 ∧
      evs.getLast? = some Event.postEpoch := by
  obtain ⟨⟨evsB, m1⟩, hB⟩ :=
    trainBatches_ok H epoch hli loader.batches 0 { m with training := true }
  obtain ⟨hsr, hopt, hrz, hpe⟩ :=
    trainBatches_discipline H epoch loader.batches 0 _ evsB m1 hB
  refine ⟨evsB ++ [Event.postEpoch], H.postEpoch m1, by simp [train, hB],
    ?_, ?_, ?_, ?_⟩
  · rw [hsr [Event.postEpoch]]
    rfl
  · simp [List.count_append, List.count_cons, hopt, hrz]
  · simp [List.count_append, List.count_cons, hpe]
  · simp

/-- Batches visited at positive batch indices below `log_interval` write no
artifact: their index is nonzero modulo `log_interval`. -/
theorem trainBatches_artifacts_zero {Input : Type} (H : Hooks Input) {li : ℕ}
    (epoch : ℕ) (bs : List (List (Input × ℕ))) :
    ∀ (idx : ℕ) (m : Model) (evs : List Event) (m' : Model),
      1 ≤ idx → idx + bs.length ≤ li →
      trainBatches H li epoch bs idx m = .ok (evs, m') →
      countArtifacts evs = 0 := by
  induction bs with
  | nil =>
      intro idx m evs m' _ _ h
      simp only [trainBatches, Except.ok.injEq, Prod.mk.injEq] at h
      rw [← h.1]
      rfl
  | cons b rest ih =>
      intro idx m evs m' hidx1 hle h
      rw [List.length_cons] at hle
      have hz : li ≠ 0 := by omega
      simp only [trainBatches, pyMod, hz, if_false] at h
      cases hrec : trainBatches H li epoch rest (idx + 1)
          (H.rezero (H.optStep (H.fwdTrain m b) b)) with
      | error e =>
          rw [hrec] at h
          simp at h
      | ok p =>
          obtain ⟨evs2, m2⟩ := p
          rw [hrec] at h
          simp only [Except.ok.injEq, Prod.mk.injEq] at h
          obtain ⟨h1, h2⟩ := h
          subst h1
          have hmod : idx % li = idx := Nat.mod_eq_of_lt (by omega)
          have hne : ¬ (idx % li = 0) := by
            rw [hmod]
            omega
          rw [if_neg hne]
          have htail := ih (idx + 1) _ evs2 m2 (by omega) (by omega) hrec
          simp [countArtifacts, List.countP_append, List.countP_cons, isArtifact,
            htail] at htail ⊢
          exact htail

/-- When `log_interval` exceeds the batch count, the only artifact-writing
batch is batch 0 (`0 % log_interval == 0`). -/
theorem trainBatches_artifacts_first {Input : Type} (H : Hooks Input) {li : ℕ}
    (epoch : ℕ) (bs : List (List (Input × ℕ))) (hgt : bs.length < li) :
    ∀ (m : Model) (evs : List Event) (m' : Model),
      trainBatches H li epoch bs 0 m = .ok (evs, m') →
      countArtifacts evs = if bs.length = 0 then 0 else 1 := by
  cases bs with
  | nil =>
      intro m evs m' h
      simp only [trainBatches, Except.ok.injEq, Prod.mk.injEq] at h
      rw [← h.1]
      rfl
  | cons b rest =>
      intro m evs m' h
      rw [List.length_cons] at hgt
      have hz : li ≠ 0 := by omega
      simp only [trainBatches, pyMod, hz, if_false] at h
      cases hrec : trainBatches H li epoch rest (0 + 1)
          (H.rezero (H.optStep (H.fwdTrain m b) b)) with
      | error e =>
          rw [hrec] at h
          simp at h
      | ok p =>
          obtain ⟨evs2, m2⟩ := p
          rw [hrec] at h
          simp only [Except.ok.injEq, Prod.mk.injEq] at h
          obtain ⟨h1, h2⟩ := h
          subst h1
          rw [if_pos (Nat.zero_mod li)]
          have htail := trainBatches_artifacts_zero H epoch rest (0 + 1) _ evs2 m2
            (by omega) (by omega) hrec
          simp [countArtifacts, List.countP_append, List.countP_cons, isArtifact,
            htail] at htail ⊢
          exact htail

/-- C1 (amended): if `log_interval` is strictly greater than the number of
batches in the epoch, the training loop writes exactly one diagnostic
artifact that epoch when the epoch has at least one batch (at batch index 0),
and zero when the epoch has no batches. -/
theorem train_large_interval_artifacts {Input : Type} (H : Hooks Input)
    (params : Params) (loader : Loader Input) (m : Model) (epoch : ℕ)
    (hgt : loader.batches.length < params.log_interval) :
    ∃ evs m', train H params loader m epoch = .ok (evs, m') ∧
      countArtifacts evs = if loader.batches.length = 0 then 0 else 1 := by
  have hli : 1 ≤ params.log_interval := by omega
  obtain ⟨⟨evsB, m1⟩, hB⟩ :=
    trainBatches_ok H epoch hli loader.batches 0 { m with training := true }
  refine ⟨evsB ++ [Event.postEpoch], H.postEpoch m1, by simp [train, hB], ?_⟩
  have hcnt := trainBatches_artifacts_first H epoch loader.batches hgt _ evsB m1 hB
  simp only [countArtifacts, List.countP_append] at hcnt ⊢
  rw [hcnt]
  rfl

/-- C10: the per-batch test `batch_idx % log_interval == 0` makes a nonzero
`log_interval` a precondition of the training loop: with `log_interval ≥ 1`
every epoch completes without error, while with `log_interval = 0` the first
batch of a nonempty epoch raises `ZeroDivisionError`. -/
theorem train_log_interval_guard {Input : Type} :
    (∀ (H : Hooks Input) (params : Params) (loader : Loader Input) (m : Model)
        (epoch : ℕ), 1 ≤ params.log_interval →
        ∃ p, train H params loader m epoch = .ok p) ∧
    (∀ (H : Hooks Input) (params : Params) (loader : Loader Input) (m : Model)
        (epoch : ℕ), params.log_interval = 0 → loader.batches ≠ [] →
        train H params loader m epoch
          = .error "integer division or modulo by zero") := by
  constructor
  · exact fun H params loader m epoch hli => train_ok H loader m epoch hli
  · intro H params loader m epoch hz hne
    cases hbs : loader.batches with
    | nil => exact absurd hbs hne
    | cons b rest => simp [train, hbs, trainBatches, pyMod, hz]

/-! ### Counterexample and witnesses at concrete inputs -/

/-- C1 fails as stated: with `log_interval = 2` strictly greater than the
single batch of the epoch, the training loop still writes one diagnostic
artifact (at batch index 0, since `0 % log_interval == 0`). -/
theorem train_large_interval_counterexample :
    cxLoader.batches.length < 2 ∧
    ∃ evs m',
      train cxHooks { iterations := 1, log_interval := 2 } cxLoader cxModel 0
          = .ok (evs, m') ∧
      countArtifacts evs ≠ 0 := by
  refine ⟨by decide,
    [Event.zeroGrad, Event.forwardPass, Event.backwardPass, Event.optStep,
     Event.rezero, Event.artifact 0 0, Event.postEpoch],
    { cxModel with training := true }, rfl, by decide⟩

/-- Witness for the amended C1 at a concrete input. -/
theorem train_large_interval_artifacts_witness :
    ∃ evs m',
      train cxHooks { iterations := 1, log_interval := 2 } cxLoader cxModel 0
          = .ok (evs, m') ∧
      countArtifacts evs = if cxLoader.batches.length = 0 then 0 else 1 :=
  train_large_interval_artifacts cxHooks { iterations := 1, log_interval := 2 }
    cxLoader cxModel 0 (by decide)

/-- Witness for C3 at a concrete input (one configured iteration, index 0). -/
theorem noise_testerror_witness :
    (∃ t, rget ((runNoiseTests cxHooks (fun _ => cxLoader) cxModel).1)
          (RKey.noise 0.0) = some (RVal.metrics t) ∧
        rget ((runNoiseTests cxHooks (fun _ => cxLoader) cxModel).1)
          RKey.testerror = some (RVal.rat t.testerror)) ∧
    (∃ ret m2 t,
        iterate cxHooks { iterations := 1, log_interval := 1 } cxLoader
            (fun _ => cxLoader) cxModel 0 0 = .ok (ret, m2) ∧
        rget ret (RKey.noise 0.0) = some (RVal.metrics t) ∧
        rget ret RKey.testerror = some (RVal.rat t.testerror)) :=
  noise_testerror_is_clean_testerror cxHooks { iterations := 1, log_interval := 1 }
    cxLoader (fun _ => cxLoader) cxModel 0 0 (by decide) (by decide)

/-- Witness for C4 at a concrete input (one configured iteration, index 0). -/
theorem iterate_result_keys_witness :
    ∃ ret m2,
      iterate cxHooks { iterations := 1, log_interval := 1 } cxLoader
          (fun _ => cxLoader) cxModel 0 0 = .ok (ret, m2) ∧
      rget ret RKey.elapsedTime = some (RVal.rat 0) ∧
      ((rget ret RKey.totalCorrect).isSome
          ↔ ((0 : ℕ) : ℤ) = (((1 : ℕ) : ℤ)) - 1) ∧
      ((rget ret RKey.testerror).isSome
          ↔ ((0 : ℕ) : ℤ) = (((1 : ℕ) : ℤ)) - 1) ∧
      (∀ lvl ∈ noiseLevels, (rget ret (RKey.noise lvl)).isSome
          ↔ ((0 : ℕ) : ℤ) = (((1 : ℕ) : ℤ)) - 1) :=
  iterate_result_keys cxHooks { iterations := 1, log_interval := 1 } cxLoader
    (fun _ => cxLoader) cxModel 0 0 (by decide)

/-- Witness for C9 at a concrete input (two configured iterations, index 0). -/
theorem iterate_nonfinal_witness :
    ∃ m2, iterate cxHooks { iterations := 2, log_interval := 1 } cxLoader
        (fun _ => cxLoader) cxModel 0 0
      = .ok ([(RKey.elapsedTime, RVal.rat 0)], m2) :=
  iterate_nonfinal_only_elapsed cxHooks { iterations := 2, log_interval := 1 }
    cxLoader (fun _ => cxLoader) cxModel 0 0 (by decide) (by decide)

/-- Witness for C6 at a concrete input. -/
theorem train_hook_discipline_witness :
    ∃ evs m',
      train cxHooks { iterations := 1, log_interval := 1 } cxLoader cxModel 0
          = .ok (evs, m') ∧
      stepsRezeroed evs = true ∧
      evs.count Event.rezero = evs.count Event.optStep ∧
      evs.count Event.postEpoch = 1 ∧
      evs.getLast? = some Event.postEpoch :=
  train_hook_discipline cxHooks { iterations := 1, log_interval := 1 } cxLoader
    cxModel 0 (by decide)

/-- Witness for C10 at concrete inputs: a positive `log_interval` completes,
a zero `log_interval` raises on the first batch. -/
theorem train_log_interval_guard_witness :
    (∃ p, train cxHooks { iterations := 1, log_interval := 1 } cxLoader cxModel 0
        = .ok p) ∧
    train cxHooks { iterations := 1, log_interval := 0 } cxLoader cxModel 0
        = .error "integer division or modulo by zero" :=
  ⟨(@train_log_interval_guard Unit).1 cxHooks
      { iterations := 1, log_interval := 1 } cxLoader cxModel 0 (by decide),
   (@train_log_interval_guard Unit).2 cxHooks
      { iterations := 1, log_interval := 0 } cxLoader cxModel 0 rfl (by decide)⟩

end MNISTSparseExperiment
